import Mathlib

/-!
Verification development for the album-art finder (src/run.py).

The matching core of the repository is shallowly embedded here:

* the normalizer `_norm` (run.py lines 150-156) is embedded as a pure
  function on lists of characters;
* the fuzzy-ratio helper `_ratio` (lines 158-161) keeps its explicit
  empty-string behaviour; the call to `difflib.SequenceMatcher.ratio`,
  an external standard-library capability, is abstracted as a function
  parameter `sm`;
* the catalog search `_search_itunes` (lines 163-176) and the image
  download (lines 250-257) are embedded with explicit oracles of type
  `Except` and `Option`, mirroring the try/except structure;
* `find_album_art` (lines 179-257) is embedded as the composition of
  query construction, the scoring loop, and artwork resolution; the
  resolution step additionally returns the list of URLs that were
  fetched, which makes the no-fetch claims observable.

Python floats are modelled as rationals; machine-level float rounding
is not modelled, only the exact arithmetic of the score expressions.
-/

/-! ## Character classes used by the normalizer -/

/-- Matches the character class of the regex `[^a-z0-9]+` used in run.py
line 148: a character that survives the substitution. -/
def isWordChar (c : Char) : Bool :=
  (('a' ≤ c) && (c ≤ 'z')) || (('0' ≤ c) && (c ≤ '9'))

/-- Whitespace in the sense of Python `str.strip` and `str.split`
restricted to the ASCII whitespace characters. -/
def isSpace (c : Char) : Bool :=
  (c = ' ') || (c = '\t') || (c = '\n') || (c = '\r') || (c = '\x0b') || (c = '\x0c')

/-! ## The normalizer pipeline (run.py lines 150-156) -/

/-- Python `str.strip`: drop whitespace from both ends. -/
def stripWs (l : List Char) : List Char :=
  ((l.dropWhile isSpace).reverse.dropWhile isSpace).reverse

/-- Scan for the closing bracket of a lazy regex match.  The pattern
`\(.*?\)` matches from an opening bracket to the nearest closing one,
where `.` does not cross a newline; `findClose` returns the remainder
after that nearest closing bracket, or `none` when the lazy match
fails. -/
def findClose (close : Char) : List Char → Option (List Char)
  | [] => none
  | c :: cs =>
    if c = '\n' then none
    else if c = close then some cs
    else findClose close cs

/-- Embeds `re.sub` with the pattern dropping bracketed extras
(run.py line 154): each non-overlapping lazy match from `(` to the
nearest `)` (or `[` to the nearest `]`), not crossing a newline, is
removed. -/
def dropBrackets (l : List Char) : List Char :=
  match l with
  | [] => []
  | c :: cs =>
    if c = '(' then
      match h : findClose ')' cs with
      | some rest => dropBrackets rest
      | none => c :: dropBrackets cs
    else if c = '[' then
      match h : findClose ']' cs with
      | some rest => dropBrackets rest
      | none => c :: dropBrackets cs
    else c :: dropBrackets cs
termination_by l.length
decreasing_by
  · have hb : ∀ (close : Char) (l rest : List Char),
        findClose close l = some rest → rest.length ≤ l.length := by
      intro close l
      induction l with
      | nil => intro rest hr; simp [findClose] at hr
      | cons c cs ih =>
        intro rest hr
        by_cases h1 : c = '\n'
        · simp [findClose, h1] at hr
        · by_cases h2 : c = close
          · simp [findClose, h1, h2] at hr
            rw [hr.2]
            exact Nat.le_succ_of_le (Nat.le_refl _)
          · simp [findClose, h1, h2] at hr
            exact Nat.le_succ_of_le (ih _ hr)
    exact Nat.lt_succ_of_le (hb _ _ _ h)
  · exact Nat.lt_succ_of_le (Nat.le_refl _)
  · have hb : ∀ (close : Char) (l rest : List Char),
        findClose close l = some rest → rest.length ≤ l.length := by
      intro close l
      induction l with
      | nil => intro rest hr; simp [findClose] at hr
      | cons c cs ih =>
        intro rest hr
        by_cases h1 : c = '\n'
        · simp [findClose, h1] at hr
        · by_cases h2 : c = close
          · simp [findClose, h1, h2] at hr
            rw [hr.2]
            exact Nat.le_succ_of_le (Nat.le_refl _)
          · simp [findClose, h1, h2] at hr
            exact Nat.le_succ_of_le (ih _ hr)
    exact Nat.lt_succ_of_le (hb _ _ _ h)
  · exact Nat.lt_succ_of_le (Nat.le_refl _)
  · exact Nat.lt_succ_of_le (Nat.le_refl _)

/-- Embeds `_WORD_RE.sub` with a space (run.py line 155): every maximal
run of characters outside `[a-z0-9]` is replaced by a single space. -/
def subNonWord (l : List Char) : List Char :=
  match l with
  | [] => []
  | c :: cs =>
    if isWordChar c then c :: subNonWord cs
    else ' ' :: subNonWord (cs.dropWhile (fun d => !isWordChar d))
termination_by l.length
decreasing_by
  · exact Nat.lt_succ_of_le (Nat.le_refl _)
  · have hb : ∀ (p : Char → Bool) (l : List Char), (l.dropWhile p).length ≤ l.length := by
      intro p l
      induction l with
      | nil => simp
      | cons a l ih =>
        by_cases hpa : p a
        · rw [List.dropWhile_cons_of_pos hpa]; exact Nat.le_succ_of_le ih
        · rw [List.dropWhile_cons_of_neg hpa]
    exact Nat.lt_succ_of_le (hb _ _)

/-- Python `str.split` with no separator: the maximal runs of
non-whitespace characters. -/
def splitWs (l : List Char) : List (List Char) :=
  match l with
  | [] => []
  | c :: cs =>
    if isSpace c then splitWs cs
    else (c :: cs.takeWhile (fun d => !isSpace d)) :: splitWs (cs.dropWhile (fun d => !isSpace d))
termination_by l.length
decreasing_by
  · exact Nat.lt_succ_of_le (Nat.le_refl _)
  · have hb : ∀ (p : Char → Bool) (l : List Char), (l.dropWhile p).length ≤ l.length := by
      intro p l
      induction l with
      | nil => simp
      | cons a l ih =>
        by_cases hpa : p a
        · rw [List.dropWhile_cons_of_pos hpa]; exact Nat.le_succ_of_le ih
        · rw [List.dropWhile_cons_of_neg hpa]
    exact Nat.lt_succ_of_le (hb _ _)

/-- Python `" ".join`: words separated by single spaces. -/
def joinWords : List (List Char) → List Char
  | [] => []
  | [w] => w
  | w :: v :: ws => w ++ ' ' :: joinWords (v :: ws)

/-- The whole normalization pipeline of `_norm` on a list of
characters: lowercase, strip, drop bracketed extras, collapse
non-alphanumeric runs, then join the split words with single spaces. -/
def normList (l : List Char) : List Char :=
  joinWords (splitWs (subNonWord (dropBrackets (stripWs (l.map Char.toLower)))))

/-- Embeds `_norm` (run.py lines 150-156).  The argument is optional,
matching the `Optional[str]` signature; Python falsiness of `None` and
of the empty string is the first guard. -/
def _norm (s : Option String) : String :=
  match s with
  | none => ""
  | some str => if str = "" then "" else String.mk (normList str.data)

/-! ## The fuzzy ratio (run.py lines 158-161) -/

/-- Embeds `_ratio`.  The parameter `sm` abstracts the call
`SequenceMatcher(None, a, b).ratio()` of the Python standard library,
which the specification treats as an external character-level
similarity capability; the explicit empty-string guard of `_ratio`
itself is part of the repository and is embedded exactly. -/
def _ratio (sm : String → String → ℚ) (a b : String) : ℚ :=
  if a = "" ∨ b = "" then 0 else sm a b

/-! ## Data model of the matcher -/

/-- One result record from the external catalog search.  Only the
fields read by `find_album_art` are modelled; each is optional, since
`dict.get` returns `None` for a missing key. -/
structure ITunesResult where
  trackName : Option String
  collectionName : Option String
  artistName : Option String
  artworkUrl100 : Option String
  artworkUrl60 : Option String
deriving DecidableEq

/-- The matching configuration values of run.py lines 120-124.  The
two float thresholds are modelled as rationals. -/
structure Config where
  REQUIRE_ARTIST_MATCH : Bool
  PREFER_ALBUM_WHEN_NO_ARTIST : Bool
  MIN_TITLE_RATIO_Q : ℚ
  MIN_ALBUM_RATIO_Q : ℚ
  MAX_ITUNES_RESULTS : Nat
deriving DecidableEq

/-- Python `x or y` on two optional strings: the first operand unless
it is falsy (absent or empty). -/
def pyOr (a b : Option String) : Option String :=
  match a with
  | some s => if s = "" then b else some s
  | none => b

/-- Python substring containment `a in b` on strings, as contiguous
containment of the character lists. -/
def substrB (a b : String) : Bool :=
  decide (a.data <:+: b.data)

/-- The weighted score by query type (run.py lines 222-230).  The
argument order follows the ratio variables of the source: title ratio,
artist ratio, album ratio. -/
def scoreOf (qtype : String) (t_rat ar_rat a_rat : ℚ) : ℚ :=
  if qtype = "artist_title" then 0.6 * t_rat + 0.3 * ar_rat + 0.1 * a_rat
  else if qtype = "artist_album" then 0.6 * a_rat + 0.3 * ar_rat + 0.1 * t_rat
  else if qtype = "title_only" then 0.8 * t_rat + 0.2 * a_rat
  else 0.8 * a_rat + 0.2 * t_rat

/-! ## The scoring loop (run.py lines 205-240) -/

/-- The body of the inner loop of `find_album_art` for one candidate
`r` (run.py lines 208-240): normalize the candidate fields, apply the
artist constraint, compute the ratios and the weighted score, apply
the threshold filters, and update the running best. -/
def considerCandidate (cfg : Config) (sm : String → String → ℚ)
    (n_artist n_title n_album qtype : String)
    (best : Option (ℚ × ITunesResult)) (r : ITunesResult) : Option (ℚ × ITunesResult) :=
  let it_title := _norm (pyOr r.trackName r.collectionName)
  let it_album := _norm r.collectionName
  let it_artist := _norm r.artistName
  if cfg.REQUIRE_ARTIST_MATCH ∧ n_artist ≠ "" ∧ it_artist ≠ "" ∧
      substrB n_artist it_artist = false ∧ substrB it_artist n_artist = false then
    best
  else
    let t_rat := _ratio sm n_title it_title
    let a_rat := _ratio sm n_album it_album
    let ar_rat := _ratio sm n_artist it_artist
    let score := scoreOf qtype t_rat ar_rat a_rat
    if n_title ≠ "" ∧ t_rat < cfg.MIN_TITLE_RATIO_Q ∧ qtype ≠ "album_only" then best
    else if n_album ≠ "" ∧ a_rat < cfg.MIN_ALBUM_RATIO_Q ∧ qtype ≠ "title_only" then best
    else
      match best with
      | none => some (score, r)
      | some (bs, br) => if score > bs then some (score, r) else some (bs, br)

/-- The query list construction of `find_album_art`
(run.py lines 187-201): five ordered conditionals; the search terms
use the raw input fields, the guards use the normalized ones. -/
def buildQueries (cfg : Config) (artist title album : Option String) :
    List (String × String × String) :=
  let n_artist := _norm artist
  let n_title := _norm title
  let n_album := _norm album
  (if n_artist ≠ "" ∧ n_title ≠ "" then
    [(artist.getD "" ++ " " ++ title.getD "", "song", "artist_title")] else []) ++
  (if n_artist ≠ "" ∧ n_album ≠ "" then
    [(artist.getD "" ++ " " ++ album.getD "", "album", "artist_album")] else []) ++
  (if n_artist = "" ∧ n_album ≠ "" ∧ cfg.PREFER_ALBUM_WHEN_NO_ARTIST then
    [(album.getD "", "album", "album_only")] else []) ++
  (if n_title ≠ "" then
    [(title.getD "", "song", "title_only")] else []) ++
  (if n_album ≠ "" ∧ (n_artist ≠ "" ∨ ¬cfg.PREFER_ALBUM_WHEN_NO_ARTIST) then
    [(album.getD "", "album", "album_only")] else [])

/-- The outer scoring loop of `find_album_art`
(run.py lines 203-240): fold the per-candidate step over the results
of each query in order, starting from no best candidate. -/
def bestOverQueries (cfg : Config) (sm : String → String → ℚ)
    (search : String → String → Nat → List ITunesResult)
    (n_artist n_title n_album : String)
    (queries : List (String × String × String)) : Option (ℚ × ITunesResult) :=
  queries.foldl
    (fun best q =>
      (search q.1 q.2.1 cfg.MAX_ITUNES_RESULTS).foldl
        (considerCandidate cfg sm n_artist n_title n_album q.2.2) best)
    none

/-! ## Retrieval and resolution (run.py lines 163-176 and 242-257) -/

/-- Embeds `_search_itunes`: the HTTP round trip is an oracle that
either returns the parsed result list or fails; the surrounding
try/except turns any failure into an empty list. -/
def _search_itunes (get : String → String → Nat → Except String (List ITunesResult))
    (query entity : String) (limit : Nat) : List ITunesResult :=
  match get query entity limit with
  | Except.ok rs => rs
  | Except.error _ => []

/-- Embeds the image download of run.py lines 250-257: the HTTP round
trip is an oracle returning content bytes and a content type, or
failing; the bytes are returned only when the download succeeded, the
content is non-empty, and the declared content type is an image type. -/
def fetchImageBytes (get : String → Except String (List Nat × String)) (url : String) :
    Option (List Nat) :=
  match get url with
  | Except.error _ => none
  | Except.ok (content, ctype) =>
    if content ≠ [] ∧ ctype.startsWith ("image/") then some content else none

/-- Embeds the resolution step of `find_album_art`
(run.py lines 242-257): no best candidate means no match; otherwise
take the artwork URL with the Python `or` fallback, reject a falsy
URL, upgrade the thumbnail size token, and fetch.  The second
component records which URLs were fetched, so that absence of a fetch
is observable. -/
def resolveArt (fetch : String → Option (List Nat))
    (best : Option (ℚ × ITunesResult)) : Option (List Nat) × List String :=
  match best with
  | none => (none, [])
  | some (_, r) =>
    match pyOr r.artworkUrl100 r.artworkUrl60 with
    | none => (none, [])
    | some a =>
      if a = "" then (none, [])
      else
        let art := a.replace ("100x100") ("600x600")
        (fetch art, [art])

/-- Embeds `find_album_art` (run.py lines 179-257), composed of query
construction, the scoring loop over the search oracle, and artwork
resolution over the fetch oracle. -/
def find_album_art (cfg : Config) (sm : String → String → ℚ)
    (get : String → String → Nat → Except String (List ITunesResult))
    (fetch : String → Option (List Nat))
    (artist title album : Option String) : Option (List Nat) × List String :=
  let n_artist := _norm artist
  let n_title := _norm title
  let n_album := _norm album
  let queries := buildQueries cfg artist title album
  let best := bestOverQueries cfg sm (fun t e l => _search_itunes get t e l)
    n_artist n_title n_album queries
  resolveArt fetch best

/-! ## Specification views of the scoring loop

The following definitions restate the filters and the score of one
candidate as predicates and functions of the candidate, so that the
loop can be described as a fold over the list of surviving scored
candidates. -/

/-- The artist-constraint of run.py line 213 holds, so the candidate
is skipped before scoring. -/
abbrev artistSkipped (cfg : Config) (n_artist : String) (r : ITunesResult) : Prop :=
  cfg.REQUIRE_ARTIST_MATCH ∧ n_artist ≠ "" ∧ _norm r.artistName ≠ "" ∧
    substrB n_artist (_norm r.artistName) = false ∧ substrB (_norm r.artistName) n_artist = false

/-- The title threshold filter of run.py line 233 rejects the
candidate. -/
abbrev titleRejected (cfg : Config) (sm : String → String → ℚ)
    (n_title qtype : String) (r : ITunesResult) : Prop :=
  n_title ≠ "" ∧
    _ratio sm n_title (_norm (pyOr r.trackName r.collectionName)) < cfg.MIN_TITLE_RATIO_Q ∧
    qtype ≠ "album_only"

/-- The album threshold filter of run.py line 235 rejects the
candidate. -/
abbrev albumRejected (cfg : Config) (sm : String → String → ℚ)
    (n_album qtype : String) (r : ITunesResult) : Prop :=
  n_album ≠ "" ∧ _ratio sm n_album (_norm r.collectionName) < cfg.MIN_ALBUM_RATIO_Q ∧
    qtype ≠ "title_only"

/-- The candidate passes the artist constraint and both threshold
filters. -/
abbrev survives (cfg : Config) (sm : String → String → ℚ)
    (n_artist n_title n_album qtype : String) (r : ITunesResult) : Prop :=
  ¬artistSkipped cfg n_artist r ∧ ¬titleRejected cfg sm n_title qtype r ∧
    ¬albumRejected cfg sm n_album qtype r

/-- The weighted score of one candidate under one query type, with the
three ratios computed from the normalized fields exactly as in run.py
lines 217-219. -/
def candScore (sm : String → String → ℚ) (n_artist n_title n_album qtype : String)
    (r : ITunesResult) : ℚ :=
  scoreOf qtype
    (_ratio sm n_title (_norm (pyOr r.trackName r.collectionName)))
    (_ratio sm n_artist (_norm r.artistName))
    (_ratio sm n_album (_norm r.collectionName))

/-- The running-best update of run.py lines 239-240: the incoming
scored candidate replaces the best only when its score is strictly
greater. -/
def updateBest (best : Option (ℚ × ITunesResult)) (p : ℚ × ITunesResult) :
    Option (ℚ × ITunesResult) :=
  match best with
  | none => some p
  | some (bs, br) => if p.1 > bs then some p else some (bs, br)

/-- All scored candidates, in loop order, that pass the artist
constraint and the threshold filters of their query. -/
def survivorsList (cfg : Config) (sm : String → String → ℚ)
    (search : String → String → Nat → List ITunesResult)
    (n_artist n_title n_album : String)
    (queries : List (String × String × String)) : List (ℚ × ITunesResult) :=
  queries.flatMap (fun q =>
    ((search q.1 q.2.1 cfg.MAX_ITUNES_RESULTS).filter
        (fun r => decide (survives cfg sm n_artist n_title n_album q.2.2 r))).map
      (fun r => (candScore sm n_artist n_title n_album q.2.2 r, r)))

/-- The words of a normalized string: each nonempty, each made of
characters from `[a-z0-9]` only. -/
def GoodWords (ws : List (List Char)) : Prop :=
  ∀ w ∈ ws, w ≠ [] ∧ ∀ c ∈ w, isWordChar c = true

/-! ## Concrete instances used by the witnesses -/

/-- The default configuration of run.py lines 120-124. -/
def cfgW : Config := ⟨false, true, 0.55, 0.55, 5⟩

/-- A configuration with zero thresholds, so every candidate passes
the threshold filters. -/
def cfgZero : Config := ⟨false, true, 0, 0, 5⟩

/-- A configuration with the artist constraint enabled and zero
thresholds. -/
def cfgReq : Config := ⟨true, true, 0, 0, 5⟩

/-- A similarity oracle that always reports 0.40. -/
def smLow : String → String → ℚ := fun _ _ => 0.40

/-- A similarity oracle that always reports a perfect match. -/
def smOne : String → String → ℚ := fun _ _ => 1

/-- A candidate with a track name only. -/
def rLow : ITunesResult := ⟨some "b", none, none, none, none⟩

/-- A candidate with track name, artist and an artwork URL. -/
def rArt : ITunesResult := ⟨some "t", none, some "a", some "u100x100v", none⟩

/-- A candidate with track name and artist but no artwork URL at all. -/
def rNoArt : ITunesResult := ⟨some "t", none, some "a", none, none⟩

/-- A search oracle returning the artwork candidate for every query. -/
def searchArt : String → String → Nat → List ITunesResult := fun _ _ _ => [rArt]

/-- A retrieval oracle that always fails. -/
def getFail : String → String → Nat → Except String (List ITunesResult) :=
  fun _ _ _ => Except.error "boom"

/-- A retrieval oracle returning the candidate without artwork. -/
def getNoArt : String → String → Nat → Except String (List ITunesResult) :=
  fun _ _ _ => Except.ok [rNoArt]

/-- A fetch oracle that always fails. -/
def fetchNone : String → Option (List Nat) := fun _ => none

/-- A candidate whose artist shares no substring relation with the
query artist used by the witnesses. -/
def rMis : ITunesResult := ⟨some "t", none, some "xyz", none, none⟩

/-- A search oracle returning no results for every query. -/
def searchEmpty : String → String → Nat → List ITunesResult := fun _ _ _ => []

theorem length_dropWhile_le {α : Type} (p : α → Bool) (l : List α) :
    (l.dropWhile p).length ≤ l.length := by
  induction l with
  | nil => simp
  | cons a l ih =>
    by_cases h : p a
    · rw [List.dropWhile_cons_of_pos h]; exact Nat.le_succ_of_le ih
    · rw [List.dropWhile_cons_of_neg h]

theorem considerCandidate_eq (cfg : Config) (sm : String → String → ℚ)
    (n_artist n_title n_album qtype : String)
    (best : Option (ℚ × ITunesResult)) (r : ITunesResult) :
    considerCandidate cfg sm n_artist n_title n_album qtype best r =
      if survives cfg sm n_artist n_title n_album qtype r then
        updateBest best (candScore sm n_artist n_title n_album qtype r, r)
      else best := by
  by_cases h1 : artistSkipped cfg n_artist r
  · have hns : ¬survives cfg sm n_artist n_title n_album qtype r := by
      intro hs; exact hs.1 h1
    rw [if_neg hns]
    simp only [considerCandidate]
    rw [if_pos h1]
  · by_cases h2 : titleRejected cfg sm n_title qtype r
    · have hns : ¬survives cfg sm n_artist n_title n_album qtype r := by
        intro hs; exact hs.2.1 h2
      rw [if_neg hns]
      simp only [considerCandidate]
      rw [if_neg h1, if_pos h2]
    · by_cases h3 : albumRejected cfg sm n_album qtype r
      · have hns : ¬survives cfg sm n_artist n_title n_album qtype r := by
          intro hs; exact hs.2.2 h3
        rw [if_neg hns]
        simp only [considerCandidate]
        rw [if_neg h1, if_neg h2, if_pos h3]
      · have hs : survives cfg sm n_artist n_title n_album qtype r := ⟨h1, h2, h3⟩
        rw [if_pos hs]
        simp only [considerCandidate]
        rw [if_neg h1, if_neg h2, if_neg h3]
        cases best with
        | none => rfl
        | some p =>
          cases p with
          | mk bs br => rfl

theorem foldl_considerCandidate_eq (cfg : Config) (sm : String → String → ℚ)
    (n_artist n_title n_album qtype : String) :
    ∀ (rs : List ITunesResult) (best : Option (ℚ × ITunesResult)),
      rs.foldl (considerCandidate cfg sm n_artist n_title n_album qtype) best =
        ((rs.filter (fun r => decide (survives cfg sm n_artist n_title n_album qtype r))).map
          (fun r => (candScore sm n_artist n_title n_album qtype r, r))).foldl
            updateBest best := by
  intro rs
  induction rs with
  | nil => intro best; rfl
  | cons r rs ih =>
    intro best
    by_cases h : survives cfg sm n_artist n_title n_album qtype r
    · rw [List.foldl_cons, considerCandidate_eq, if_pos h, ih]
      simp only [List.filter_cons, decide_eq_true h, if_true, List.map_cons, List.foldl_cons]
    · rw [List.foldl_cons, considerCandidate_eq, if_neg h, ih]
      simp only [List.filter_cons, decide_eq_false h, Bool.false_eq_true, if_false]

theorem bestOverQueries_eq_foldl (cfg : Config) (sm : String → String → ℚ)
    (search : String → String → Nat → List ITunesResult)
    (n_artist n_title n_album : String) (queries : List (String × String × String)) :
    bestOverQueries cfg sm search n_artist n_title n_album queries =
      (survivorsList cfg sm search n_artist n_title n_album queries).foldl updateBest none := by
  suffices h : ∀ (qs : List (String × String × String)) (best : Option (ℚ × ITunesResult)),
      qs.foldl
        (fun best q =>
          (search q.1 q.2.1 cfg.MAX_ITUNES_RESULTS).foldl
            (considerCandidate cfg sm n_artist n_title n_album q.2.2) best)
        best =
      (survivorsList cfg sm search n_artist n_title n_album qs).foldl updateBest best by
    exact h queries none
  intro qs
  induction qs with
  | nil => intro best; rfl
  | cons q qs ih =>
    intro best
    rw [List.foldl_cons, foldl_considerCandidate_eq, ih]
    simp only [survivorsList, List.flatMap_cons, List.foldl_append]

/-! ## The running maximum of a fold with strict replacement -/

theorem foldl_updateBest_some (s : ℚ × ITunesResult) :
    ∀ (l : List (ℚ × ITunesResult)) (b : ℚ × ITunesResult),
      l.foldl updateBest (some b) = some s →
      (s = b ∧ ∀ p ∈ l, p.1 ≤ s.1) ∨
        (b.1 < s.1 ∧ ∃ l1 l2, l = l1 ++ s :: l2 ∧
          (∀ p ∈ l1, p.1 < s.1) ∧ ∀ p ∈ l2, p.1 ≤ s.1) := by
  intro l
  induction l with
  | nil =>
    intro b h
    left
    constructor
    · cases h; rfl
    · intro p hp; cases hp
  | cons q ps ih =>
    intro b h
    rw [List.foldl_cons] at h
    by_cases hq : q.1 > b.1
    · have hub : updateBest (some b) q = some q := by
        cases b with
        | mk bs br => simp only [updateBest]; rw [if_pos hq]
      rw [hub] at h
      rcases ih q h with ⟨rfl, hall⟩ | ⟨hlt, l1, l2, hdec, h1, h2⟩
      · right
        refine ⟨hq, [], ps, by simp, ?_, hall⟩
        intro p hp; cases hp
      · right
        refine ⟨lt_trans hq hlt, q :: l1, l2, by rw [hdec]; rfl, ?_, h2⟩
        intro p hp
        rcases List.mem_cons.mp hp with rfl | hp
        · exact hlt
        · exact h1 p hp
    · have hub : updateBest (some b) q = some b := by
        cases b with
        | mk bs br => simp only [updateBest]; rw [if_neg hq]
      rw [hub] at h
      rcases ih b h with ⟨rfl, hall⟩ | ⟨hlt, l1, l2, hdec, h1, h2⟩
      · left
        refine ⟨rfl, ?_⟩
        intro p hp
        rcases List.mem_cons.mp hp with rfl | hp
        · exact le_of_not_lt hq
        · exact hall p hp
      · right
        refine ⟨hlt, q :: l1, l2, by rw [hdec]; rfl, ?_, h2⟩
        intro p hp
        rcases List.mem_cons.mp hp with rfl | hp
        · exact lt_of_le_of_lt (le_of_not_lt hq) hlt
        · exact h1 p hp

theorem foldl_updateBest_none_characterization (s : ℚ × ITunesResult) :
    ∀ l : List (ℚ × ITunesResult),
      l.foldl updateBest none = some s →
      ∃ l1 l2, l = l1 ++ s :: l2 ∧ (∀ p ∈ l1, p.1 < s.1) ∧ ∀ p ∈ l2, p.1 ≤ s.1 := by
  intro l h
  cases l with
  | nil => cases h
  | cons q ps =>
    rw [List.foldl_cons] at h
    have hub : updateBest none q = some q := rfl
    rw [hub] at h
    rcases foldl_updateBest_some s ps q h with ⟨rfl, hall⟩ | ⟨hlt, l1, l2, hdec, h1, h2⟩
    · exact ⟨[], ps, by simp, fun p hp => absurd hp (List.not_mem_nil p), hall⟩
    · refine ⟨q :: l1, l2, by rw [hdec]; rfl, ?_, h2⟩
      intro p hp
      rcases List.mem_cons.mp hp with rfl | hp
      · exact hlt
      · exact h1 p hp

theorem foldl_updateBest_none_nil :
    ∀ l : List (ℚ × ITunesResult), l.foldl updateBest none = none → l = [] := by
  intro l h
  cases l with
  | nil => rfl
  | cons q ps =>
    exfalso
    rw [List.foldl_cons] at h
    have : ∀ (m : List (ℚ × ITunesResult)) (b : ℚ × ITunesResult),
        m.foldl updateBest (some b) ≠ none := by
      intro m
      induction m with
      | nil => intro b hc; cases hc
      | cons x xs ihx =>
        intro b hc
        rw [List.foldl_cons] at hc
        cases b with
        | mk bs br =>
          simp only [updateBest] at hc
          by_cases hx : x.1 > bs
          · rw [if_pos hx] at hc; exact ihx x hc
          · rw [if_neg hx] at hc; exact ihx (bs, br) hc
    exact this ps q h

/-! ## Idempotence of the normalizer

A normalized string is a join of nonempty words of characters from
`[a-z0-9]`, separated by single spaces.  Each stage of the pipeline
fixes such a string, and the pipeline always produces one. -/

theorem wordChar_not_space {c : Char} (h : isWordChar c = true) : isSpace c = false := by
  cases hs : isSpace c
  · rfl
  · exfalso
    simp only [isSpace, Bool.or_eq_true, decide_eq_true_eq, or_assoc] at hs
    rcases hs with rfl | rfl | rfl | rfl | rfl | rfl <;> exact absurd h (by decide)

theorem toLower_wordChar {c : Char} (h : isWordChar c = true) : c.toLower = c := by
  simp only [isWordChar, Bool.or_eq_true, Bool.and_eq_true, decide_eq_true_eq] at h
  unfold Char.toLower
  rw [if_neg]
  intro hc
  obtain ⟨hc1, hc2⟩ := hc
  rcases h with ⟨h1, h2⟩ | ⟨h1, h2⟩
  · have k1 : (97 : Nat) ≤ c.toNat := h1
    omega
  · have k2 : c.toNat ≤ (57 : Nat) := h2
    have k1 : (48 : Nat) ≤ c.toNat := h1
    omega

theorem joinWords_chars {ws : List (List Char)} (hws : GoodWords ws) :
    ∀ c ∈ joinWords ws, isWordChar c = true ∨ c = ' ' := by
  induction ws with
  | nil => intro c hc; cases hc
  | cons w vs ih =>
    intro c hc
    cases vs with
    | nil =>
      exact Or.inl ((hws w (List.mem_cons_self w [])).2 c hc)
    | cons v ws2 =>
      rw [joinWords] at hc
      rcases List.mem_append.mp hc with hcw | hcr
      · exact Or.inl ((hws w (List.mem_cons_self w _)).2 c hcw)
      · rcases List.mem_cons.mp hcr with rfl | hcr
        · exact Or.inr rfl
        · exact ih (fun u hu => hws u (List.mem_cons_of_mem w hu)) c hcr

theorem map_toLower_id {l : List Char} (h : ∀ c ∈ l, isWordChar c = true ∨ c = ' ') :
    l.map Char.toLower = l := by
  induction l with
  | nil => rfl
  | cons c cs ih =>
    rw [List.map_cons, ih (fun d hd => h d (List.mem_cons_of_mem c hd))]
    rcases h c (List.mem_cons_self c cs) with hw | rfl
    · rw [toLower_wordChar hw]
    · rfl

theorem joinWords_head {ws : List (List Char)} (hws : GoodWords ws) :
    joinWords ws = [] ∨ ∃ c t, joinWords ws = c :: t ∧ isWordChar c = true := by
  cases ws with
  | nil => exact Or.inl rfl
  | cons w vs =>
    obtain ⟨hne, hchars⟩ := hws w (List.mem_cons_self w vs)
    cases hw : w with
    | nil => exact absurd hw hne
    | cons c w2 =>
      right
      have hc : isWordChar c = true := hchars c (by rw [hw]; exact List.mem_cons_self c w2)
      cases vs with
      | nil => exact ⟨c, w2, by rw [joinWords], hc⟩
      | cons v ws2 =>
        exact ⟨c, w2 ++ ' ' :: joinWords (v :: ws2), by rw [joinWords, List.cons_append], hc⟩

theorem joinWords_reverse_head {ws : List (List Char)} (hws : GoodWords ws) :
    joinWords ws = [] ∨
      ∃ c t, (joinWords ws).reverse = c :: t ∧ isWordChar c = true := by
  induction ws with
  | nil => exact Or.inl rfl
  | cons w vs ih =>
    obtain ⟨hne, hchars⟩ := hws w (List.mem_cons_self w vs)
    cases vs with
    | nil =>
      right
      cases hrev : w.reverse with
      | nil => exact absurd (List.reverse_eq_nil_iff.mp hrev) hne
      | cons c t =>
        have hcw : c ∈ w := List.mem_reverse.mp (by rw [hrev]; exact List.mem_cons_self c t)
        exact ⟨c, t, by rw [joinWords]; exact hrev, hchars c hcw⟩
    | cons v ws2 =>
      right
      rcases ih (fun u hu => hws u (List.mem_cons_of_mem w hu)) with hnil | ⟨c, t, hrev, hc⟩
      · exfalso
        obtain ⟨hvne, _⟩ := hws v (List.mem_cons_of_mem w (List.mem_cons_self v ws2))
        cases hv : v with
        | nil => exact hvne hv
        | cons x v2 =>
          rw [hv] at hnil
          cases ws2 with
          | nil => rw [joinWords] at hnil; cases hnil
          | cons u ws3 => rw [joinWords] at hnil; cases hnil
      · refine ⟨c, t ++ ' ' :: w.reverse, ?_, hc⟩
        rw [joinWords, List.reverse_append, List.reverse_cons, List.append_assoc, hrev]
        rfl

theorem dropWhile_head_neg {p : Char → Bool} {l : List Char}
    (h : l = [] ∨ ∃ c t, l = c :: t ∧ p c = false) : l.dropWhile p = l := by
  rcases h with rfl | ⟨c, t, rfl, hc⟩
  · rfl
  · rw [List.dropWhile_cons_of_neg (by rw [hc]; exact Bool.false_ne_true)]

theorem stripWs_join {ws : List (List Char)} (hws : GoodWords ws) :
    stripWs (joinWords ws) = joinWords ws := by
  unfold stripWs
  have h1 : (joinWords ws).dropWhile isSpace = joinWords ws := by
    apply dropWhile_head_neg
    rcases joinWords_head hws with hnil | ⟨c, t, heq, hc⟩
    · exact Or.inl hnil
    · exact Or.inr ⟨c, t, heq, wordChar_not_space hc⟩
  rw [h1]
  have h2 : (joinWords ws).reverse.dropWhile isSpace = (joinWords ws).reverse := by
    apply dropWhile_head_neg
    rcases joinWords_reverse_head hws with hnil | ⟨c, t, heq, hc⟩
    · exact Or.inl (by rw [hnil]; rfl)
    · exact Or.inr ⟨c, t, heq, wordChar_not_space hc⟩
  rw [h2, List.reverse_reverse]

theorem wordChar_not_open {c : Char} (h : isWordChar c = true ∨ c = ' ') :
    ¬c = '(' ∧ ¬c = '[' := by
  constructor
  · rintro rfl
    rcases h with h | h
    · exact absurd h (by decide)
    · exact absurd h (by decide)
  · rintro rfl
    rcases h with h | h
    · exact absurd h (by decide)
    · exact absurd h (by decide)

theorem dropBrackets_id : ∀ l : List Char, (∀ c ∈ l, ¬c = '(' ∧ ¬c = '[') →
    dropBrackets l = l := by
  intro l
  induction l with
  | nil => intro _; rw [dropBrackets]
  | cons c cs ih =>
    intro h
    obtain ⟨h1, h2⟩ := h c (List.mem_cons_self c cs)
    rw [dropBrackets, if_neg h1, if_neg h2, ih (fun d hd => h d (List.mem_cons_of_mem c hd))]

theorem subNonWord_append {w : List Char} (hw : ∀ c ∈ w, isWordChar c = true) :
    ∀ t, subNonWord (w ++ t) = w ++ subNonWord t := by
  induction w with
  | nil => intro t; rfl
  | cons c w2 ih =>
    intro t
    rw [List.cons_append, subNonWord, if_pos (hw c (List.mem_cons_self c w2)),
      ih (fun d hd => hw d (List.mem_cons_of_mem c hd))]
    rfl

theorem subNonWord_join {ws : List (List Char)} (hws : GoodWords ws) :
    subNonWord (joinWords ws) = joinWords ws := by
  induction ws with
  | nil => rw [joinWords, subNonWord]
  | cons w vs ih =>
    obtain ⟨hne, hchars⟩ := hws w (List.mem_cons_self w vs)
    cases vs with
    | nil =>
      rw [joinWords, ← List.append_nil w, subNonWord_append hchars, subNonWord]
    | cons v ws2 =>
      have ihv := ih (fun u hu => hws u (List.mem_cons_of_mem w hu))
      rw [joinWords, subNonWord_append hchars, subNonWord]
      rw [if_neg (by decide)]
      have hdrop : (joinWords (v :: ws2)).dropWhile (fun d => !isWordChar d) =
          joinWords (v :: ws2) := by
        apply dropWhile_head_neg
        rcases joinWords_head (fun u hu => hws u (List.mem_cons_of_mem w hu)) with hnil | hcons
        · exact Or.inl hnil
        · obtain ⟨c, t, heq, hc⟩ := hcons
          exact Or.inr ⟨c, t, heq, by rw [hc]; rfl⟩
      rw [hdrop, ihv]

theorem takeWhile_all {p : Char → Bool} : ∀ {l : List Char}, (∀ c ∈ l, p c = true) →
    l.takeWhile p = l := by
  intro l
  induction l with
  | nil => intro _; rfl
  | cons c cs ih =>
    intro h
    rw [List.takeWhile_cons_of_pos (h c (List.mem_cons_self c cs)),
      ih (fun d hd => h d (List.mem_cons_of_mem c hd))]

theorem dropWhile_all {p : Char → Bool} : ∀ {l : List Char}, (∀ c ∈ l, p c = true) →
    l.dropWhile p = [] := by
  intro l
  induction l with
  | nil => intro _; rfl
  | cons c cs ih =>
    intro h
    rw [List.dropWhile_cons_of_pos (h c (List.mem_cons_self c cs)),
      ih (fun d hd => h d (List.mem_cons_of_mem c hd))]

theorem takeWhile_append_stop {p : Char → Bool} {w : List Char} (hw : ∀ c ∈ w, p c = true)
    {x : Char} (hx : p x = false) (t : List Char) :
    (w ++ x :: t).takeWhile p = w := by
  induction w with
  | nil => rw [List.nil_append, List.takeWhile_cons_of_neg (by rw [hx]; exact Bool.false_ne_true)]
  | cons c w2 ih =>
    rw [List.cons_append, List.takeWhile_cons_of_pos (hw c (List.mem_cons_self c w2)),
      ih (fun d hd => hw d (List.mem_cons_of_mem c hd))]

theorem dropWhile_append_stop {p : Char → Bool} {w : List Char} (hw : ∀ c ∈ w, p c = true)
    {x : Char} (hx : p x = false) (t : List Char) :
    (w ++ x :: t).dropWhile p = x :: t := by
  induction w with
  | nil => rw [List.nil_append, List.dropWhile_cons_of_neg (by rw [hx]; exact Bool.false_ne_true)]
  | cons c w2 ih =>
    rw [List.cons_append, List.dropWhile_cons_of_pos (hw c (List.mem_cons_self c w2)),
      ih (fun d hd => hw d (List.mem_cons_of_mem c hd))]

theorem splitWs_join {ws : List (List Char)} (hws : GoodWords ws) :
    splitWs (joinWords ws) = ws := by
  induction ws with
  | nil => rw [joinWords, splitWs]
  | cons w vs ih =>
    obtain ⟨hne, hchars⟩ := hws w (List.mem_cons_self w vs)
    have hnotsp : ∀ c ∈ w, (fun d => !isSpace d) c = true := by
      intro c hc
      have hcs := wordChar_not_space (hchars c hc)
      simp [hcs]
    cases vs with
    | nil =>
      cases hw : w with
      | nil => exact absurd hw hne
      | cons c w2 =>
        subst hw
        rw [joinWords, splitWs,
          if_neg (by rw [wordChar_not_space (hchars c (List.mem_cons_self c w2))]; exact Bool.false_ne_true)]
        rw [takeWhile_all (fun d hd => hnotsp d (List.mem_cons_of_mem c hd)),
          dropWhile_all (fun d hd => hnotsp d (List.mem_cons_of_mem c hd)), splitWs]
    | cons v ws2 =>
      have ihv := ih (fun u hu => hws u (List.mem_cons_of_mem w hu))
      cases hw : w with
      | nil => exact absurd hw hne
      | cons c w2 =>
        subst hw
        rw [joinWords, List.cons_append, splitWs,
          if_neg (by rw [wordChar_not_space (hchars c (List.mem_cons_self c w2))]; exact Bool.false_ne_true)]
        rw [takeWhile_append_stop (fun d hd => hnotsp d (List.mem_cons_of_mem c hd)) (by decide),
          dropWhile_append_stop (fun d hd => hnotsp d (List.mem_cons_of_mem c hd)) (by decide)]
        rw [splitWs, if_pos (by decide), ihv]

theorem mem_takeWhile_prop {p : Char → Bool} :
    ∀ {l : List Char} {c : Char}, c ∈ l.takeWhile p → p c = true ∧ c ∈ l := by
  intro l
  induction l with
  | nil => intro c hc; cases hc
  | cons a as ih =>
    intro c hc
    by_cases ha : p a
    · rw [List.takeWhile_cons_of_pos ha] at hc
      rcases List.mem_cons.mp hc with rfl | hc
      · exact ⟨ha, List.mem_cons_self c as⟩
      · obtain ⟨h1, h2⟩ := ih hc
        exact ⟨h1, List.mem_cons_of_mem a h2⟩
    · rw [List.takeWhile_cons_of_neg ha] at hc
      cases hc

theorem mem_dropWhile_mem {p : Char → Bool} :
    ∀ {l : List Char} {c : Char}, c ∈ l.dropWhile p → c ∈ l := by
  intro l
  induction l with
  | nil => intro c hc; cases hc
  | cons a as ih =>
    intro c hc
    by_cases ha : p a
    · rw [List.dropWhile_cons_of_pos ha] at hc
      exact List.mem_cons_of_mem a (ih hc)
    · rw [List.dropWhile_cons_of_neg ha] at hc
      exact hc

theorem subNonWord_chars :
    ∀ l : List Char, ∀ c ∈ subNonWord l, isWordChar c = true ∨ c = ' ' := by
  suffices h : ∀ n, ∀ l : List Char, l.length = n →
      ∀ c ∈ subNonWord l, isWordChar c = true ∨ c = ' ' by
    exact fun l => h l.length l rfl
  intro n
  induction n using Nat.strong_induction_on with
  | _ n ih =>
    intro l hl
    cases l with
    | nil => intro c hc; rw [subNonWord] at hc; cases hc
    | cons a as =>
      intro c hc
      rw [subNonWord] at hc
      by_cases ha : isWordChar a
      · rw [if_pos ha] at hc
        rcases List.mem_cons.mp hc with rfl | hc
        · exact Or.inl ha
        · exact ih as.length (by rw [← hl]; exact Nat.lt_succ_of_le (Nat.le_refl _)) as rfl c hc
      · rw [if_neg ha] at hc
        rcases List.mem_cons.mp hc with rfl | hc
        · exact Or.inr rfl
        · have hlen : (as.dropWhile (fun d => !isWordChar d)).length < n := by
            rw [← hl]
            exact Nat.lt_succ_of_le (length_dropWhile_le _ _)
          exact ih _ hlen _ rfl c hc

theorem splitWs_good :
    ∀ l : List Char, (∀ c ∈ l, isWordChar c = true ∨ c = ' ') →
      GoodWords (splitWs l) := by
  suffices h : ∀ n, ∀ l : List Char, l.length = n →
      (∀ c ∈ l, isWordChar c = true ∨ c = ' ') → GoodWords (splitWs l) by
    exact fun l => h l.length l rfl
  intro n
  induction n using Nat.strong_induction_on with
  | _ n ih =>
    intro l hl
    cases l with
    | nil =>
      intro _ w hw
      rw [splitWs] at hw
      cases hw
    | cons a as =>
      intro hchars w hw
      rw [splitWs] at hw
      by_cases ha : isSpace a
      · rw [if_pos ha] at hw
        exact ih as.length (by rw [← hl]; exact Nat.lt_succ_of_le (Nat.le_refl _)) as rfl
          (fun c hc => hchars c (List.mem_cons_of_mem a hc)) w hw
      · rw [if_neg ha] at hw
        rcases List.mem_cons.mp hw with rfl | hw
        · refine ⟨List.cons_ne_nil _ _, ?_⟩
          intro c hc
          rcases List.mem_cons.mp hc with rfl | hc
          · rcases hchars c (List.mem_cons_self c as) with h | rfl
            · exact h
            · exact absurd (by decide : isSpace ' ' = true) (by exact ha)
          · obtain ⟨hp, hmem⟩ := mem_takeWhile_prop hc
            rcases hchars c (List.mem_cons_of_mem a hmem) with h | rfl
            · exact h
            · exfalso
              rw [show isSpace ' ' = true by decide] at hp
              exact Bool.false_ne_true (by simpa using hp)
        · have hlen : (as.dropWhile (fun d => !isSpace d)).length < n := by
            rw [← hl]
            exact Nat.lt_succ_of_le (length_dropWhile_le _ _)
          exact ih _ hlen _ rfl
            (fun c hc => hchars c (List.mem_cons_of_mem a (mem_dropWhile_mem hc))) w hw

theorem normList_good (l : List Char) :
    ∃ ws, GoodWords ws ∧ normList l = joinWords ws := by
  refine ⟨splitWs (subNonWord (dropBrackets (stripWs (l.map Char.toLower)))), ?_, rfl⟩
  exact splitWs_good _ (subNonWord_chars _)

theorem normList_fix {ws : List (List Char)} (hws : GoodWords ws) :
    normList (joinWords ws) = joinWords ws := by
  have hchars := joinWords_chars hws
  unfold normList
  rw [map_toLower_id hchars, stripWs_join hws,
    dropBrackets_id _ (fun c hc => wordChar_not_open (hchars c hc)),
    subNonWord_join hws, splitWs_join hws]

theorem normList_idem (l : List Char) : normList (normList l) = normList l := by
  obtain ⟨ws, hws, heq⟩ := normList_good l
  rw [heq, normList_fix hws]

/-! ## Claim theorems -/

/-- Claim C7: the normalizer is idempotent: normalizing an already
normalized string leaves it unchanged, for every input. -/
theorem norm_idempotent (x : Option String) : _norm (some (_norm x)) = _norm x := by
  have key : ∀ l : List Char,
      _norm (some (String.mk (normList l))) = String.mk (normList l) := by
    intro l
    by_cases h : String.mk (normList l) = ""
    · simp only [_norm]
      rw [if_pos h, h]
    · simp only [_norm]
      rw [if_neg h]
      show String.mk (normList (normList l)) = String.mk (normList l)
      rw [normList_idem]
  cases x with
  | none =>
    show _norm (some "") = ""
    simp [_norm]
  | some str =>
    by_cases h : str = ""
    · subst h
      simp [_norm]
    · have hstr : _norm (some str) = String.mk (normList str.data) := by
        simp only [_norm]
        rw [if_neg h]
      rw [hstr, key]

/-- Claim C8: the normalizer is total and pure: absent and empty
inputs yield the empty string, and every input has a value. -/
theorem norm_total_and_empty :
    _norm none = "" ∧ _norm (some "") = "" ∧ ∀ s : Option String, ∃ t : String, _norm s = t :=
  ⟨rfl, by simp [_norm], fun s => ⟨_norm s, rfl⟩⟩

/-- Claim C4: the weighted score is the stated linear combination of
the three ratios for each of the four query types, with the
album_only profile as the default branch for any other tag. -/
theorem score_weight_profiles (t_rat ar_rat a_rat : ℚ) :
    scoreOf "artist_title" t_rat ar_rat a_rat = 0.6 * t_rat + 0.3 * ar_rat + 0.1 * a_rat ∧
    scoreOf "artist_album" t_rat ar_rat a_rat = 0.6 * a_rat + 0.3 * ar_rat + 0.1 * t_rat ∧
    scoreOf "title_only" t_rat ar_rat a_rat = 0.8 * t_rat + 0.2 * a_rat ∧
    scoreOf "album_only" t_rat ar_rat a_rat = 0.8 * a_rat + 0.2 * t_rat ∧
    ∀ q : String, q ≠ "artist_title" → q ≠ "artist_album" → q ≠ "title_only" →
      scoreOf q t_rat ar_rat a_rat = 0.8 * a_rat + 0.2 * t_rat := by
  refine ⟨?_, ?_, ?_, ?_, ?_⟩
  · rw [scoreOf, if_pos rfl]
  · rw [scoreOf, if_neg (by decide), if_pos rfl]
  · rw [scoreOf, if_neg (by decide), if_neg (by decide), if_pos rfl]
  · rw [scoreOf, if_neg (by decide), if_neg (by decide), if_neg (by decide)]
  · intro q h1 h2 h3
    rw [scoreOf, if_neg h1, if_neg h2, if_neg h3]

/-- Witness for C4 at concrete ratios and at a query type outside the
three named tags, which falls to the album_only profile. -/
theorem score_weight_profiles_witness :
    scoreOf "artist_title" 1 (1/2) (1/4) = 0.6 * 1 + 0.3 * (1/2) + 0.1 * (1/4) ∧
    scoreOf "other" 1 (1/2) (1/4) = 0.8 * (1/4) + 0.2 * 1 :=
  ⟨(score_weight_profiles 1 (1/2) (1/4)).1,
   (score_weight_profiles 1 (1/2) (1/4)).2.2.2.2 "other" (by decide) (by decide) (by decide)⟩

/-- Claim C5: the threshold filters, applied after scoring and before
acceptance, reject a candidate whose title ratio is below the title
threshold unless the query type is album_only, and a candidate whose
album ratio is below the album threshold unless the query type is
title_only; a rejected candidate leaves the running best unchanged. -/
theorem threshold_filters_reject (cfg : Config) (sm : String → String → ℚ)
    (n_artist n_title n_album qtype : String)
    (best : Option (ℚ × ITunesResult)) (r : ITunesResult) :
    (n_title ≠ "" →
      _ratio sm n_title (_norm (pyOr r.trackName r.collectionName)) < cfg.MIN_TITLE_RATIO_Q →
      qtype ≠ "album_only" →
      considerCandidate cfg sm n_artist n_title n_album qtype best r = best) ∧
    (n_album ≠ "" →
      _ratio sm n_album (_norm r.collectionName) < cfg.MIN_ALBUM_RATIO_Q →
      qtype ≠ "title_only" →
      considerCandidate cfg sm n_artist n_title n_album qtype best r = best) := by
  constructor
  · intro h1 h2 h3
    rw [considerCandidate_eq, if_neg]
    intro hs
    exact hs.2.1 ⟨h1, h2, h3⟩
  · intro h1 h2 h3
    rw [considerCandidate_eq, if_neg]
    intro hs
    exact hs.2.2 ⟨h1, h2, h3⟩

/-- Witness for C5: with the default threshold 0.55, a candidate whose
title ratio is 0.40 under query type title_only is rejected, and a
candidate whose album ratio is below the album threshold under query
type artist_title is rejected; the running best stays empty. -/
theorem threshold_filters_reject_witness :
    considerCandidate cfgW smLow "" "t" "" "title_only" none rLow = none ∧
    considerCandidate cfgW smLow "" "" "al" "artist_title" none rLow = none :=
  ⟨(threshold_filters_reject cfgW smLow "" "t" "" "title_only" none rLow).1
    (by decide)
    (by
      simp [cfgW, smLow, rLow, _ratio, pyOr, _norm, normList, stripWs, dropBrackets, subNonWord, splitWs, joinWords, isWordChar, isSpace]
      norm_num)
    (by decide),
   (threshold_filters_reject cfgW smLow "" "" "al" "artist_title" none rLow).2
    (by decide)
    (by
      simp [cfgW, smLow, rLow, _ratio, pyOr, _norm, normList, stripWs, dropBrackets, subNonWord, splitWs, joinWords, isWordChar, isSpace]
      norm_num)
    (by decide)⟩

/-- Claim C1: for every run of the scoring loop and every sequence of
candidate result lists, the chosen candidate is a surviving candidate
whose score is the maximum over all surviving candidates, every
earlier surviving candidate scores strictly less (ties keep the
earlier-seen candidate, since replacement needs a strictly greater
score), and when the loop returns nothing there are no surviving
candidates at all. -/
theorem winner_score_is_first_seen_max (cfg : Config) (sm : String → String → ℚ)
    (search : String → String → Nat → List ITunesResult)
    (n_artist n_title n_album : String) (queries : List (String × String × String)) :
    (bestOverQueries cfg sm search n_artist n_title n_album queries = none →
      survivorsList cfg sm search n_artist n_title n_album queries = []) ∧
    ∀ (s : ℚ) (r : ITunesResult),
      bestOverQueries cfg sm search n_artist n_title n_album queries = some (s, r) →
      (s, r) ∈ survivorsList cfg sm search n_artist n_title n_album queries ∧
      (∀ p ∈ survivorsList cfg sm search n_artist n_title n_album queries, p.1 ≤ s) ∧
      ∃ l1 l2, survivorsList cfg sm search n_artist n_title n_album queries =
          l1 ++ (s, r) :: l2 ∧ (∀ p ∈ l1, p.1 < s) ∧ ∀ p ∈ l2, p.1 ≤ s := by
  constructor
  · intro h
    rw [bestOverQueries_eq_foldl] at h
    exact foldl_updateBest_none_nil _ h
  · intro s r h
    rw [bestOverQueries_eq_foldl] at h
    obtain ⟨l1, l2, hdec, h1, h2⟩ := foldl_updateBest_none_characterization (s, r) _ h
    refine ⟨?_, ?_, l1, l2, hdec, h1, h2⟩
    · rw [hdec]
      exact List.mem_append.mpr (Or.inr (List.mem_cons_self _ _))
    · intro p hp
      rw [hdec] at hp
      rcases List.mem_append.mp hp with hp | hp
      · exact le_of_lt (h1 p hp)
      · rcases List.mem_cons.mp hp with rfl | hp
        · exact le_refl _
        · exact h2 p hp

/-- Witness for C1: a concrete run in which the single candidate
survives with score 0.8 and is therefore the member of the survivor
list with the maximal score; and a run with no results has an empty
survivor list. -/
theorem winner_score_is_first_seen_max_witness :
    ((4 : ℚ)/5, rArt) ∈
      survivorsList cfgZero smOne searchArt "a" "t" "" [("t", "song", "title_only")] ∧
    survivorsList cfgZero smOne searchEmpty "a" "t" "" [("t", "song", "title_only")] = [] :=
  ⟨(((winner_score_is_first_seen_max cfgZero smOne searchArt "a" "t" ""
      [("t", "song", "title_only")]).2 (4/5) rArt
      (by
        simp [bestOverQueries, considerCandidate, cfgZero, smOne, searchArt, rArt, _ratio,
          scoreOf, pyOr, _norm, normList, stripWs, dropBrackets, subNonWord, splitWs, joinWords, isWordChar, isSpace]
        norm_num))).1,
   (winner_score_is_first_seen_max cfgZero smOne searchEmpty "a" "t" ""
      [("t", "song", "title_only")]).1
      (by simp [bestOverQueries, searchEmpty])⟩

/-- Claim C6: with the artist constraint enabled and a non-empty query
artist, a candidate whose normalized artist is non-empty and shares no
substring relation with the query artist leaves the running best
unchanged wherever it appears, and consequently the winner of the
whole scoring loop always satisfies the constraint: its normalized
artist is empty or one normalized artist contains the other. -/
theorem artist_constraint_excludes (cfg : Config) (sm : String → String → ℚ)
    (search : String → String → Nat → List ITunesResult)
    (n_artist n_title n_album qtype : String) (queries : List (String × String × String))
    (hreq : cfg.REQUIRE_ARTIST_MATCH = true) (hA : n_artist ≠ "") :
    (∀ (best : Option (ℚ × ITunesResult)) (r : ITunesResult),
      _norm r.artistName ≠ "" → substrB n_artist (_norm r.artistName) = false →
      substrB (_norm r.artistName) n_artist = false →
      considerCandidate cfg sm n_artist n_title n_album qtype best r = best) ∧
    ∀ (s : ℚ) (r : ITunesResult),
      bestOverQueries cfg sm search n_artist n_title n_album queries = some (s, r) →
      _norm r.artistName = "" ∨ substrB n_artist (_norm r.artistName) = true ∨
        substrB (_norm r.artistName) n_artist = true := by
  constructor
  · intro best r h1 h2 h3
    rw [considerCandidate_eq, if_neg]
    intro hs
    exact hs.1 ⟨hreq, hA, h1, h2, h3⟩
  · intro s r h
    rw [bestOverQueries_eq_foldl] at h
    obtain ⟨l1, l2, hdec, _, _⟩ := foldl_updateBest_none_characterization (s, r) _ h
    have hmem : (s, r) ∈ survivorsList cfg sm search n_artist n_title n_album queries := by
      rw [hdec]
      exact List.mem_append.mpr (Or.inr (List.mem_cons_self _ _))
    rw [survivorsList] at hmem
    obtain ⟨q, hq, hmem2⟩ := List.mem_flatMap.mp hmem
    obtain ⟨r2, hr2, heq⟩ := List.mem_map.mp hmem2
    obtain ⟨-, hsurv⟩ := List.mem_filter.mp hr2
    cases heq
    have hs := of_decide_eq_true hsurv
    by_cases hia : _norm r.artistName = ""
    · exact Or.inl hia
    · rcases Bool.eq_false_or_eq_true (substrB n_artist (_norm r.artistName)) with hb1 | hb1
      · exact Or.inr (Or.inl hb1)
      · rcases Bool.eq_false_or_eq_true (substrB (_norm r.artistName) n_artist) with hb2 | hb2
        · exact Or.inr (Or.inr hb2)
        · exact absurd ⟨hreq, hA, hia, hb1, hb2⟩ hs.1

/-- Witness for C6: with the artist constraint enabled, a candidate
whose artist has no substring relation with the query artist leaves
the running best unchanged, and the concrete winner of a run has an
artist that contains the query artist. -/
theorem artist_constraint_excludes_witness :
    considerCandidate cfgReq smOne "a" "t" "" "title_only" none rMis = none ∧
    (_norm rArt.artistName = "" ∨ substrB "a" (_norm rArt.artistName) = true ∨
      substrB (_norm rArt.artistName) "a" = true) :=
  ⟨((artist_constraint_excludes cfgReq smOne searchArt "a" "t" "" "title_only"
      [("t", "song", "title_only")] rfl (by decide)).1 none rMis
      (by simp [rMis, _norm, normList, stripWs, dropBrackets, subNonWord, splitWs, joinWords, isWordChar, isSpace])
      (by
        have h : _norm rMis.artistName = "xyz" := by
          simp [rMis, _norm, normList, stripWs, dropBrackets, subNonWord, splitWs, joinWords, isWordChar, isSpace]
        rw [h]
        decide)
      (by
        have h : _norm rMis.artistName = "xyz" := by
          simp [rMis, _norm, normList, stripWs, dropBrackets, subNonWord, splitWs, joinWords, isWordChar, isSpace]
        rw [h]
        decide)),
   ((artist_constraint_excludes cfgReq smOne searchArt "a" "t" "" "title_only"
      [("t", "song", "title_only")] rfl (by decide)).2 (4/5) rArt
      (by
        simp [bestOverQueries, considerCandidate, cfgReq, smOne, searchArt, rArt, _ratio,
          scoreOf, substrB, pyOr, _norm, normList, stripWs, dropBrackets, subNonWord, splitWs, joinWords, isWordChar, isSpace]
        norm_num))⟩

theorem buildQueries_eq (cfg : Config) (artist title album : Option String) :
    buildQueries cfg artist title album =
      (if _norm artist ≠ "" ∧ _norm title ≠ "" then
        [(artist.getD "" ++ " " ++ title.getD "", "song", "artist_title")] else []) ++
      (if _norm artist ≠ "" ∧ _norm album ≠ "" then
        [(artist.getD "" ++ " " ++ album.getD "", "album", "artist_album")] else []) ++
      (if _norm artist = "" ∧ _norm album ≠ "" ∧ cfg.PREFER_ALBUM_WHEN_NO_ARTIST then
        [(album.getD "", "album", "album_only")] else []) ++
      (if _norm title ≠ "" then
        [(title.getD "", "song", "title_only")] else []) ++
      (if _norm album ≠ "" ∧ (_norm artist ≠ "" ∨ ¬cfg.PREFER_ALBUM_WHEN_NO_ARTIST) then
        [(album.getD "", "album", "album_only")] else []) := rfl

theorem albumOnly_count_le_one (cfg : Config) (artist title album : Option String) :
    ((buildQueries cfg artist title album).filter
      (fun q => decide (q.2.2 = "album_only"))).length ≤ 1 := by
  rw [buildQueries_eq]
  by_cases h3 : _norm artist = "" ∧ _norm album ≠ "" ∧ cfg.PREFER_ALBUM_WHEN_NO_ARTIST
  · have h5 : ¬(_norm album ≠ "" ∧ (_norm artist ≠ "" ∨ ¬cfg.PREFER_ALBUM_WHEN_NO_ARTIST)) := by
      rintro ⟨-, hc | hc⟩
      · exact hc h3.1
      · exact hc h3.2.2
    rw [if_pos h3, if_neg h5]
    split_ifs <;> simp
  · rw [if_neg h3]
    split_ifs <;> simp

/-- Counterexample to claim C2: there is no combination of inputs with
the prefer-album option enabled and a non-empty normalized artist for
which the constructed query list contains the album_only query twice;
the two album_only conditionals have mutually exclusive guards. -/
theorem albumOnly_duplicate_refuted :
    ¬∃ (cfg : Config) (artist title album : Option String),
        cfg.PREFER_ALBUM_WHEN_NO_ARTIST = true ∧ _norm artist ≠ "" ∧
        2 ≤ ((buildQueries cfg artist title album).filter
          (fun q => decide (q.2.2 = "album_only"))).length := by
  rintro ⟨cfg, artist, title, album, hpref, hartist, hcount⟩
  have hle := albumOnly_count_le_one cfg artist title album
  omega

/-- Claim C2, amended: for every combination of input fields the
constructed query list contains the album_only query at most once; in
particular no duplicate work is ever performed for it, because the
guard of the first album_only conditional requires an empty normalized
artist with the prefer-album option enabled while the guard of the
second requires a non-empty artist or a disabled prefer-album option. -/
theorem albumOnly_enqueued_at_most_once (cfg : Config) (artist title album : Option String) :
    ((buildQueries cfg artist title album).filter
      (fun q => decide (q.2.2 = "album_only"))).length ≤ 1 :=
  albumOnly_count_le_one cfg artist title album

/-- Claim C3: query construction follows the five ordered
conditionals: with all three fields non-empty the list is exactly
artist_title, artist_album, title_only, album_only in that order; with
only the album present and prefer-album enabled it is exactly the
early album_only query; and with artist and album empty but title
present exactly one query is issued, the title_only one. -/
theorem query_construction_ordered (cfg : Config) (artist title album : Option String) :
    (_norm artist ≠ "" → _norm title ≠ "" → _norm album ≠ "" →
      buildQueries cfg artist title album =
        [(artist.getD "" ++ " " ++ title.getD "", "song", "artist_title"),
         (artist.getD "" ++ " " ++ album.getD "", "album", "artist_album"),
         (title.getD "", "song", "title_only"),
         (album.getD "", "album", "album_only")]) ∧
    (_norm artist = "" → _norm title = "" → _norm album ≠ "" →
      cfg.PREFER_ALBUM_WHEN_NO_ARTIST = true →
      buildQueries cfg artist title album = [(album.getD "", "album", "album_only")]) ∧
    (_norm artist = "" → _norm album = "" → _norm title ≠ "" →
      buildQueries cfg artist title album = [(title.getD "", "song", "title_only")]) := by
  refine ⟨?_, ?_, ?_⟩
  · intro hA hT hAl
    rw [buildQueries_eq]
    rw [if_pos ⟨hA, hT⟩, if_pos ⟨hA, hAl⟩, if_neg (fun hc => hA hc.1), if_pos hT,
      if_pos ⟨hAl, Or.inl hA⟩]
    rfl
  · intro hA hT hAl hpref
    rw [buildQueries_eq]
    rw [if_neg (fun hc => hc.1 hA), if_neg (fun hc => hc.1 hA), if_pos ⟨hA, hAl, hpref⟩,
      if_neg (fun hc => hc hT),
      if_neg (fun hc => hc.2.elim (fun hx => hx hA) (fun hx => hx hpref))]
    rfl
  · intro hA hAl hT
    rw [buildQueries_eq]
    rw [if_neg (fun hc => hc.1 hA), if_neg (fun hc => hc.1 hA), if_neg (fun hc => hc.2.1 hAl),
      if_pos hT, if_neg (fun hc => hc.1 hAl)]
    rfl

/-- Witness for C3: with all three fields present the four queries
appear in their stated order; with only the album present under the
default configuration the early album_only query is issued alone; and
with no artist and no album but a title, exactly the single title_only
query is issued. -/
theorem query_construction_ordered_witness :
    buildQueries cfgW (some "A") (some "T") (some "L") =
      [("A T", "song", "artist_title"), ("A L", "album", "artist_album"),
       ("T", "song", "title_only"), ("L", "album", "album_only")] ∧
    buildQueries cfgW none none (some "L") = [("L", "album", "album_only")] ∧
    buildQueries cfgW none (some "T") none = [("T", "song", "title_only")] :=
  ⟨((query_construction_ordered cfgW (some "A") (some "T") (some "L")).1
      (by simp [_norm, normList, stripWs, dropBrackets, subNonWord, splitWs, joinWords, isWordChar, isSpace])
      (by simp [_norm, normList, stripWs, dropBrackets, subNonWord, splitWs, joinWords, isWordChar, isSpace])
      (by simp [_norm, normList, stripWs, dropBrackets, subNonWord, splitWs, joinWords, isWordChar, isSpace])).trans (by decide),
   (query_construction_ordered cfgW none none (some "L")).2.1 rfl rfl
      (by simp [_norm, normList, stripWs, dropBrackets, subNonWord, splitWs, joinWords, isWordChar, isSpace]) rfl,
   (query_construction_ordered cfgW none (some "T") none).2.2 rfl rfl
      (by simp [_norm, normList, stripWs, dropBrackets, subNonWord, splitWs, joinWords, isWordChar, isSpace])⟩

/-- Claim C9: when no candidate survives any query the matcher returns
the absent value and fetches nothing; a failed retrieval for one
catalog query yields an empty result list for that query; and a query
whose result list is empty leaves the scoring loop unchanged, so the
matching attempt continues over the remaining queries. -/
theorem no_survivor_no_fetch (cfg : Config) (sm : String → String → ℚ)
    (get : String → String → Nat → Except String (List ITunesResult))
    (fetch : String → Option (List Nat)) (artist title album : Option String) :
    (bestOverQueries cfg sm (fun t e l => _search_itunes get t e l)
        (_norm artist) (_norm title) (_norm album) (buildQueries cfg artist title album) = none →
      find_album_art cfg sm get fetch artist title album = (none, [])) ∧
    (∀ (query entity : String) (limit : Nat) (msg : String),
      get query entity limit = Except.error msg → _search_itunes get query entity limit = []) ∧
    ∀ (search : String → String → Nat → List ITunesResult) (nA nT nAl : String)
      (qs1 qs2 : List (String × String × String)) (q : String × String × String),
      search q.1 q.2.1 cfg.MAX_ITUNES_RESULTS = [] →
      bestOverQueries cfg sm search nA nT nAl (qs1 ++ q :: qs2) =
        bestOverQueries cfg sm search nA nT nAl (qs1 ++ qs2) := by
  refine ⟨?_, ?_, ?_⟩
  · intro h
    show resolveArt fetch
      (bestOverQueries cfg sm (fun t e l => _search_itunes get t e l)
        (_norm artist) (_norm title) (_norm album) (buildQueries cfg artist title album)) =
      (none, [])
    rw [h]
    rfl
  · intro query entity limit msg h
    unfold _search_itunes
    rw [h]
  · intro search nA nT nAl qs1 qs2 q hq
    unfold bestOverQueries
    simp only [List.foldl_append, List.foldl_cons, hq, List.foldl_nil]

/-- Witness for C9: with a retrieval oracle that always fails, the
matcher returns no match and fetches nothing, the failed query yields
an empty result list, and an empty result list for a query leaves the
scoring loop unchanged. -/
theorem no_survivor_no_fetch_witness :
    find_album_art cfgW smOne getFail fetchNone none (some "T") none = (none, []) ∧
    _search_itunes getFail "q" "song" 5 = [] ∧
    bestOverQueries cfgW smOne searchEmpty "a" "t" ""
        ([] ++ ("q", "song", "title_only") :: []) =
      bestOverQueries cfgW smOne searchEmpty "a" "t" "" ([] ++ []) :=
  ⟨(no_survivor_no_fetch cfgW smOne getFail fetchNone none (some "T") none).1
    (by
      simp [bestOverQueries, buildQueries, _search_itunes, getFail, _norm, normList, stripWs, dropBrackets, subNonWord, splitWs, joinWords, isWordChar, isSpace]),
   (no_survivor_no_fetch cfgW smOne getFail fetchNone none (some "T") none).2.1
    "q" "song" 5 "boom" rfl,
   (no_survivor_no_fetch cfgW smOne getFail fetchNone none (some "T") none).2.2
    searchEmpty "a" "t" "" [] [] ("q", "song", "title_only") rfl⟩

/-- Claim C10: when the winning candidate has neither the
artworkUrl100 field nor the artworkUrl60 field, the matcher returns
the absent value without fetching anything. -/
theorem missing_artwork_no_fetch (cfg : Config) (sm : String → String → ℚ)
    (get : String → String → Nat → Except String (List ITunesResult))
    (fetch : String → Option (List Nat)) (artist title album : Option String)
    (s : ℚ) (r : ITunesResult)
    (hbest : bestOverQueries cfg sm (fun t e l => _search_itunes get t e l)
      (_norm artist) (_norm title) (_norm album) (buildQueries cfg artist title album) =
        some (s, r))
    (h100 : r.artworkUrl100 = none) (h60 : r.artworkUrl60 = none) :
    find_album_art cfg sm get fetch artist title album = (none, []) := by
  show resolveArt fetch
    (bestOverQueries cfg sm (fun t e l => _search_itunes get t e l)
      (_norm artist) (_norm title) (_norm album) (buildQueries cfg artist title album)) =
    (none, [])
  rw [hbest]
  simp only [resolveArt, pyOr, h100, h60]

/-- Witness for C10: a concrete run whose winner lacks both artwork
URL fields and therefore produces no match and no fetch. -/
theorem missing_artwork_no_fetch_witness :
    find_album_art cfgZero smOne getNoArt fetchNone none (some "T") none = (none, []) :=
  missing_artwork_no_fetch cfgZero smOne getNoArt fetchNone none (some "T") none
    (4/5) rNoArt
    (by
      simp [bestOverQueries, buildQueries, considerCandidate, _search_itunes, getNoArt, cfgZero,
        smOne, rNoArt, _ratio, _norm, scoreOf, pyOr, normList, stripWs, dropBrackets, subNonWord,
        splitWs, joinWords, isWordChar, isSpace]
      norm_num)
    rfl rfl
